import Mathlib

/-!
Verification of the category-tree / reparent-validation / list-cache logic of
the pim-frontend repository, as a shallow embedding in Lean.

Sources embedded here:
* `src/app/categories/page.tsx` — `isDescendant`, `getAvailableParents`,
  `handleMove`, the Move-modal parent `<select>`;
* `src/unnamed/part_000` — the react-query variant of the same page
  (identical algorithm over `parentCategoryId`), and its four mutations;
* `src/app/products/[id]/edit/page.tsx` — `flattenCategories`,
  `handleAddImage`, `handleDrop`, the order-ascending display sort;
* `src/services/categoryService.ts`, `src/services/brandService.ts` —
  the backend-page-envelope normalization;
* `src/services/productImageService.ts` — `reorderImages` payload shape.

Modelling conventions:
* TypeScript `number` ids and order values become `Int`; `parentId` of type
  `number | null` / optional becomes `Option Int`.
* JavaScript truthiness tests on numbers (`!cat.parentId`,
  `!draggedImageId`, `!productId`) are embedded exactly: a value is falsy
  when it is absent or equal to 0.
* The unbounded recursion of `isDescendant` is embedded with an explicit
  fuel parameter; `none` means the recursion has not finished within the
  given fuel, so divergence of the source is `= none` for every fuel.
-/

/-- Category record as used by the categories pages: `id`, `name`,
`parentId` (named `parentCategoryId` in the `part_000` variant),
`displayOrder` (`order` in `part_000`), `isActive`. Presentation-only string
fields other than `name` are omitted. -/
structure Category where
  id : Int
  name : String
  parentId : Option Int
  displayOrder : Int
  isActive : Bool
  deriving Repr, DecidableEq

/-- JavaScript falsiness of a nullable number: `!x` is true exactly when the
value is `null`/`undefined` or `0`. -/
def jsFalsyNum (x : Option Int) : Bool :=
  match x with
  | none => true
  | some v => v == 0

/-- JavaScript `x || null` on a nullable number (used by `openMoveModal`:
`setParentId(category.parentId || null)`). -/
def jsOrNull (x : Option Int) : Option Int :=
  if jsFalsyNum x then none else x

/-- Embedding of `isDescendant` from `src/app/categories/page.tsx` lines
278-283 (identically `src/unnamed/part_000` lines 263-268):

```
const isDescendant = (cat, ancestorId) => {
    if (cat.id === ancestorId) return true;
    if (!cat.parentId) return false;
    const parent = allCategories.find((c) => c.id === cat.parentId);
    return parent ? isDescendant(parent, ancestorId) : false;
};
```

The source recursion is unbounded; `fuel` makes it total, with `none`
meaning the source has not returned within `fuel` recursive calls. -/
def isDescendant (allCategories : List Category) :
    Nat → Category → Int → Option Bool
  | 0, _, _ => none
  | fuel + 1, cat, ancestorId =>
    if cat.id = ancestorId then some true
    else if jsFalsyNum cat.parentId then some false
    else
      match allCategories.find? (fun c => cat.parentId == some c.id) with
      | some parent => isDescendant allCategories fuel parent ancestorId
      | none => some false

/-- Embedding of the filter body of `getAvailableParents`
(`src/app/categories/page.tsx` lines 285-287): a candidate is kept when
`cat.id !== selectedCategory.id && !isDescendant(cat, selectedCategory.id)`,
with JavaScript short-circuit evaluation of `&&`. -/
def availableParentFilter (allCategories : List Category) (fuel : Nat)
    (selectedId : Int) : List Category → Option (List Category)
  | [] => some []
  | cat :: rest =>
    if cat.id = selectedId then
      availableParentFilter allCategories fuel selectedId rest
    else
      match isDescendant allCategories fuel cat selectedId with
      | none => none
      | some d =>
        match availableParentFilter allCategories fuel selectedId rest with
        | none => none
        | some kept => some (if d then kept else cat :: kept)

/-- Embedding of `getAvailableParents` (`src/app/categories/page.tsx` lines
275-288): with no selected category the whole list is returned, otherwise
the list is filtered by `availableParentFilter`. -/
def getAvailableParents (allCategories : List Category) (fuel : Nat)
    (selectedCategory : Option Category) : Option (List Category) :=
  match selectedCategory with
  | none => some allCategories
  | some sel => availableParentFilter allCategories fuel sel.id allCategories

/-- Admissibility of a move target as realized by the Move modal
(`src/app/categories/page.tsx` lines 444-455): the `None (Root Category)`
option is offered unconditionally, and a numeric candidate is offered
exactly when it is the id of an entry of `getAvailableParents()`. -/
def moveTargetOffered (allCategories : List Category) (fuel : Nat)
    (selectedCategory : Category) (candidate : Option Int) : Option Bool :=
  match candidate with
  | none => some true
  | some pid =>
    match getAvailableParents allCategories fuel (some selectedCategory) with
    | none => none
    | some opts => some (opts.any (fun c => c.id == pid))

/-- Ids of the list are pairwise distinct. -/
def idsNodup (allCategories : List Category) : Prop :=
  (allCategories.map (fun c => c.id)).Nodup

/-- Every non-null parent reference resolves to a member of the list. -/
def parentsResolve (allCategories : List Category) : Prop :=
  ∀ c ∈ allCategories, c.parentId = none ∨
    ∃ p ∈ allCategories, c.parentId = some p.id

/-- `rank` strictly decreases along each child-to-parent edge; the
existence of such a ranking is exactly acyclicity of the parent graph. -/
def ParentRanked (allCategories : List Category) (rank : Int → Nat) : Prop :=
  ∀ c ∈ allCategories, ∀ p ∈ allCategories,
    c.parentId = some p.id → rank p.id < rank c.id

/-- No category carries id 0 (relevant because JavaScript treats a
`parentId` of `0` as absent). -/
def noZeroId (allCategories : List Category) : Prop :=
  ∀ c ∈ allCategories, c.id ≠ 0

instance (all : List Category) : Decidable (idsNodup all) := by
  unfold idsNodup; infer_instance

instance (all : List Category) : Decidable (parentsResolve all) := by
  unfold parentsResolve; infer_instance

instance (all : List Category) (rank : Int → Nat) :
    Decidable (ParentRanked all rank) := by
  unfold ParentRanked; infer_instance

instance (all : List Category) : Decidable (noZeroId all) := by
  unfold noZeroId; infer_instance

/-- `cat` is a proper descendant of the category with id `ancestorId`,
through the stored parent-reference chain. -/
inductive DescOf (allCategories : List Category) (ancestorId : Int) :
    Category → Prop where
  | parent (cat : Category) :
      cat.parentId = some ancestorId → DescOf allCategories ancestorId cat
  | step (cat p : Category) : p ∈ allCategories →
      cat.parentId = some p.id → DescOf allCategories ancestorId p →
      DescOf allCategories ancestorId cat

/-- Concrete category builder used by the concrete test inputs below. -/
def mkCat (i : Int) (p : Option Int) : Category :=
  { id := i, name := "", parentId := p, displayOrder := 0, isActive := true }

lemma id_inj {all : List Category} (hnd : idsNodup all)
    {a b : Category} (ha : a ∈ all) (hb : b ∈ all) (h : a.id = b.id) :
    a = b :=
  List.inj_on_of_nodup_map hnd ha hb h

lemma parent_find {all : List Category} {cat : Category} {v : Int}
    (hres : parentsResolve all) (hc : cat ∈ all)
    (hv : cat.parentId = some v) :
    ∃ q ∈ all, all.find? (fun c => cat.parentId == some c.id) = some q ∧
      cat.parentId = some q.id := by
  rcases hres cat hc with h | ⟨p, hp, hpe⟩
  · rw [h] at hv; cases hv
  cases hf : all.find? (fun c => cat.parentId == some c.id) with
  | none =>
    have := List.find?_eq_none.mp hf p hp
    simp [hpe] at this
  | some q =>
    refine ⟨q, List.mem_of_find?_eq_some hf, rfl, ?_⟩
    have := List.find?_some hf
    simpa using this

/-- On data that is a genuine forest (distinct ids, resolving parent
references, a parent-decreasing ranking, no id 0), `isDescendant`
terminates once the fuel exceeds the rank of the start node, and returns
`true` exactly on the start node itself and on proper descendants of the
queried ancestor id. -/
lemma isDescendant_spec (all : List Category) (rank : Int → Nat)
    (hnd : idsNodup all) (hres : parentsResolve all)
    (hr : ParentRanked all rank) (hz : noZeroId all) (aid : Int) :
    ∀ (fuel : Nat) (cat : Category), cat ∈ all → rank cat.id < fuel →
      ∃ b, isDescendant all fuel cat aid = some b ∧
        (b = true ↔ (cat.id = aid ∨ DescOf all aid cat)) := by
  intro fuel
  induction fuel with
  | zero => intro cat _ hlt; exact absurd hlt (Nat.not_lt_zero _)
  | succ f ih =>
    intro cat hc hlt
    by_cases h1 : cat.id = aid
    · exact ⟨true, by simp [isDescendant, h1], by simp [h1]⟩
    by_cases h2 : jsFalsyNum cat.parentId = true
    · have hpn : cat.parentId = none := by
        cases hv : cat.parentId with
        | none => rfl
        | some v =>
          have hv0 : v = 0 := by
            have := h2; rw [hv] at this; simpa [jsFalsyNum] using this
          rcases hres cat hc with h | ⟨p, hp, hpe⟩
          · rw [h] at hv; cases hv
          · rw [hpe] at hv
            have : p.id = 0 := by rw [← hv0]; injection hv
            exact absurd this (hz p hp)
      refine ⟨false, by simp [isDescendant, h1, h2], ?_⟩
      simp only [Bool.false_eq_true, false_iff]
      rintro (h | h)
      · exact h1 h
      · cases h with
        | parent _ hpar => rw [hpn] at hpar; cases hpar
        | step _ p _ hpar _ => rw [hpn] at hpar; cases hpar
    · have hv : ∃ v, cat.parentId = some v := by
        cases hvv : cat.parentId with
        | none => exact absurd (by simp [jsFalsyNum, hvv]) h2
        | some v => exact ⟨v, rfl⟩
      obtain ⟨v, hv⟩ := hv
      obtain ⟨q, hq, hfind, hqe⟩ := parent_find hres hc hv
      have hrq : rank q.id < f := by
        have h1' := hr cat hc q hq hqe
        omega
      obtain ⟨b, hb, hiff⟩ := ih q hq hrq
      refine ⟨b, ?_, ?_⟩
      · have hstep : isDescendant all (f + 1) cat aid =
            isDescendant all f q aid := by
          simp only [isDescendant]
          rw [if_neg h1, if_neg h2, hfind]
        rw [hstep]
        exact hb
      · rw [hiff]
        constructor
        · rintro (h | h)
          · right
            exact DescOf.parent cat (by rw [hqe, h])
          · right
            exact DescOf.step cat q hq hqe h
        · rintro (h | h)
          · exact absurd h h1
          · cases h with
            | parent _ hpar =>
              left
              have h2q : some q.id = some aid := hqe ▸ hpar
              exact Option.some.inj h2q
            | step _ p hp hpar hdesc =>
              right
              have h2q : some q.id = some p.id := hqe ▸ hpar
              have hpq : p = q := id_inj hnd hp hq (Option.some.inj h2q).symm
              exact hpq ▸ hdesc

/-- Correctness of the `getAvailableParents` filter over any sublist of
candidates, given forest-shaped data and enough fuel. -/
lemma availableParentFilter_spec (all : List Category) (rank : Int → Nat)
    (fuel : Nat) (aid : Int)
    (hnd : idsNodup all) (hres : parentsResolve all)
    (hr : ParentRanked all rank) (hz : noZeroId all) :
    ∀ (cand : List Category), (∀ c ∈ cand, c ∈ all) →
      (∀ c ∈ cand, rank c.id < fuel) →
      ∃ kept, availableParentFilter all fuel aid cand = some kept ∧
        ∀ N, N ∈ kept ↔ N ∈ cand ∧ N.id ≠ aid ∧ ¬ DescOf all aid N := by
  intro cand
  induction cand with
  | nil => exact fun _ _ => ⟨[], rfl, by simp⟩
  | cons cat rest ih =>
    intro hsub hfuel
    obtain ⟨kept0, hk0, hiff0⟩ :=
      ih (fun c hc => hsub c (List.mem_cons_of_mem _ hc))
        (fun c hc => hfuel c (List.mem_cons_of_mem _ hc))
    by_cases h1 : cat.id = aid
    · refine ⟨kept0, by simp [availableParentFilter, h1, hk0], ?_⟩
      intro N
      rw [hiff0 N]
      constructor
      · rintro ⟨hm, hne, hnd2⟩
        exact ⟨List.mem_cons_of_mem _ hm, hne, hnd2⟩
      · rintro ⟨hm, hne, hnd2⟩
        rcases List.mem_cons.mp hm with h | h
        · exact absurd (h ▸ h1) hne
        · exact ⟨h, hne, hnd2⟩
    · obtain ⟨b, hb, hbiff⟩ := isDescendant_spec all rank hnd hres hr hz aid
        fuel cat (hsub cat (List.mem_cons_self _ _))
        (hfuel cat (List.mem_cons_self _ _))
      cases b with
      | true =>
        have hdesc : DescOf all aid cat := by
          rcases hbiff.mp rfl with h | h
          · exact absurd h h1
          · exact h
        refine ⟨kept0, by simp [availableParentFilter, h1, hb, hk0], ?_⟩
        intro N
        rw [hiff0 N]
        constructor
        · rintro ⟨hm, hne, hnd2⟩
          exact ⟨List.mem_cons_of_mem _ hm, hne, hnd2⟩
        · rintro ⟨hm, hne, hnd2⟩
          rcases List.mem_cons.mp hm with h | h
          · exact absurd (h ▸ hdesc) hnd2
          · exact ⟨h, hne, hnd2⟩
      | false =>
        have hnotdesc : ¬ DescOf all aid cat := by
          intro h
          have := hbiff.mpr (Or.inr h)
          cases this
        refine ⟨cat :: kept0,
          by simp [availableParentFilter, h1, hb, hk0], ?_⟩
        intro N
        rw [List.mem_cons, hiff0 N, List.mem_cons]
        constructor
        · rintro (h | ⟨hm, hne, hnd2⟩)
          · exact ⟨Or.inl h, h ▸ h1, h ▸ hnotdesc⟩
          · exact ⟨Or.inr hm, hne, hnd2⟩
        · rintro ⟨h | h, hne, hnd2⟩
          · exact Or.inl h
          · exact Or.inr ⟨h, hne, hnd2⟩

/-- Concrete three-category chain from the spec's test vector:
`[{id:1,parentId:null},{id:2,parentId:1},{id:3,parentId:2}]`. -/
def chainForest : List Category :=
  [mkCat 1 none, mkCat 2 (some 1), mkCat 3 (some 2)]

/-- Ranking witnessing that `chainForest` is a forest. -/
def chainRank : Int → Nat := fun i => (i - 1).toNat

/-- Valid two-category forest whose root carries id 0: the root id 0 with
one child of id 1. -/
def zeroForest : List Category := [mkCat 0 none, mkCat 1 (some 0)]

/-- Ranking witnessing that `zeroForest` is a forest. -/
def zeroRank : Int → Nat := fun i => i.toNat

/-- Pre-corrupted category list whose parent references form a cycle:
category 1 points to category 2 and category 2 points back to category 1. -/
def cycleList : List Category := [mkCat 1 (some 2), mkCat 2 (some 1)]

/-- Claim C1, counterexample: on the valid forest `zeroForest` (root id 0
with child id 1), the child — a strict descendant of the root — IS listed
among the available parents when moving the root, because the JavaScript
test `!cat.parentId` treats the child's `parentId: 0` as absent. So the
available-parents result does not exclude all descendants of the moving
category, refuting the claim as universally stated. -/
theorem getAvailableParents_id_zero_counterexample :
    idsNodup zeroForest ∧ parentsResolve zeroForest ∧
    ParentRanked zeroForest zeroRank ∧
    mkCat 0 none ∈ zeroForest ∧ mkCat 1 (some 0) ∈ zeroForest ∧
    (mkCat 1 (some 0)).id ≠ (mkCat 0 none).id ∧
    DescOf zeroForest (mkCat 0 none).id (mkCat 1 (some 0)) ∧
    getAvailableParents zeroForest 3 (some (mkCat 0 none)) =
      some [mkCat 1 (some 0)] :=
  ⟨by decide, by decide, by decide, by decide, by decide, by decide,
    DescOf.parent _ rfl, by decide⟩

/-- Claim C1 (amended): for every flat category list forming a valid
forest (distinct ids, resolving parent references, acyclic) in which no
category has id 0, every selected category C and every category N: N is in
the `getAvailableParents` result if and only if N is in the list, N.id is
not C.id, and N is not a descendant of C via the parent-reference chain.
Acyclicity is phrased as a ranking that strictly decreases along
child-to-parent edges, and the fuel must exceed every rank. -/
theorem getAvailableParents_excludes_self_and_descendants
    (all : List Category) (rank : Int → Nat) (fuel : Nat) (sel : Category)
    (hnd : idsNodup all) (hres : parentsResolve all)
    (hr : ParentRanked all rank) (hz : noZeroId all)
    (_hsel : sel ∈ all) (hfuel : ∀ c ∈ all, rank c.id < fuel) :
    ∃ kept, getAvailableParents all fuel (some sel) = some kept ∧
      ∀ N, N ∈ kept ↔ (N ∈ all ∧ N.id ≠ sel.id ∧ ¬ DescOf all sel.id N) := by
  obtain ⟨kept, hk, hiff⟩ :=
    availableParentFilter_spec all rank fuel sel.id hnd hres hr hz all
      (fun _ hc => hc) hfuel
  exact ⟨kept, hk, hiff⟩

/-- Witness for the amended claim C1, on the spec's three-category chain
with selected category 1. -/
theorem getAvailableParents_excludes_witness :
    ∃ kept, getAvailableParents chainForest 4 (some (mkCat 1 none)) =
        some kept ∧
      ∀ N, N ∈ kept ↔ (N ∈ chainForest ∧ N.id ≠ (mkCat 1 none).id ∧
        ¬ DescOf chainForest (mkCat 1 none).id N) :=
  getAvailableParents_excludes_self_and_descendants chainForest chainRank 4
    (mkCat 1 none) (by decide) (by decide) (by decide) (by decide)
    (by decide) (by decide)

/-- Claim C2: the ancestor walk `isDescendant` does NOT terminate on a
pre-corrupted list containing a cycle — there is no visited-set or depth
bound in the source, so on `cycleList` the recursion consumes every fuel
bound without returning (the browser recursion never returns and no
data-integrity error is raised). -/
theorem isDescendant_diverges_on_cycle :
    ∀ fuel : Nat,
      isDescendant cycleList fuel (mkCat 1 (some 2)) 3 = none ∧
      isDescendant cycleList fuel (mkCat 2 (some 1)) 3 = none := by
  intro fuel
  induction fuel with
  | zero => exact ⟨rfl, rfl⟩
  | succ f ih =>
    constructor
    · show isDescendant cycleList f (mkCat 2 (some 1)) 3 = none
      exact ih.2
    · show isDescendant cycleList f (mkCat 1 (some 2)) 3 = none
      exact ih.1

/-- Claim C3: on the chain 1 ← 2 ← 3, moving category 1 under category 3
is rejected (3 is not offered among the available parents of 1), moving
category 3 to the null parent is accepted, and in general the null (root)
target is offered unconditionally by the Move modal. -/
theorem moveTarget_chain_and_null_root :
    moveTargetOffered chainForest 4 (mkCat 1 none) (some 3) = some false ∧
    moveTargetOffered chainForest 4 (mkCat 3 (some 2)) none = some true ∧
    ∀ (all : List Category) (fuel : Nat) (sel : Category),
      moveTargetOffered all fuel sel none = some true :=
  ⟨by decide, rfl, fun _ _ _ => rfl⟩

/-- Values the `parentId` state can hold when `handleMove` submits
`categoryService.move(selectedCategory.id, parentId)`
(`src/app/categories/page.tsx` lines 252-272): the initial value set by
`openMoveModal` (`category.parentId || null`), the null option of the Move
modal, or the id of an option rendered from `getAvailableParents()`. A
`canSubmitMove` value is exactly one that can reach the network call. -/
def canSubmitMove (all : List Category) (fuel : Nat) (sel : Category)
    (candidate : Option Int) : Prop :=
  candidate = none ∨ candidate = jsOrNull sel.parentId ∨
    ∃ kept, getAvailableParents all fuel (some sel) = some kept ∧
      ∃ c ∈ kept, candidate = some c.id

lemma DescOf_rank {all : List Category} {rank : Int → Nat} {aid : Int}
    (hr : ParentRanked all rank) :
    ∀ {c : Category}, DescOf all aid c → c ∈ all →
      ∀ a ∈ all, a.id = aid → rank a.id < rank c.id := by
  intro c hdesc
  induction hdesc with
  | parent cat hpar =>
    intro hcat a ha haid
    exact hr cat hcat a ha (by rw [hpar, haid])
  | step cat p hp hpar _ ih =>
    intro hcat a ha haid
    have h1 := ih hp a ha haid
    have h2 := hr cat hcat p hp hpar
    omega

/-- Claim C8, counterexample: on the valid forest `zeroForest`, the
cycle-creating move of the root (id 0) under its own child (id 1) IS
submittable: the child appears among the offered parents (its
`parentId: 0` is falsy in JavaScript), so `handleMove` reaches
`categoryService.move(0, 1)` and the move request goes to the transport
client. -/
theorem moveSubmission_cycle_counterexample :
    idsNodup zeroForest ∧ parentsResolve zeroForest ∧
    ParentRanked zeroForest zeroRank ∧
    canSubmitMove zeroForest 3 (mkCat 0 none) (some 1) ∧
    mkCat 1 (some 0) ∈ zeroForest ∧
    some (1 : Int) = some (mkCat 1 (some 0)).id ∧
    DescOf zeroForest (mkCat 0 none).id (mkCat 1 (some 0)) :=
  ⟨by decide, by decide, by decide,
    Or.inr (Or.inr ⟨[mkCat 1 (some 0)], by decide,
      mkCat 1 (some 0), by decide, rfl⟩),
    by decide, rfl, DescOf.parent _ rfl⟩

/-- Claim C8 (amended): on a valid forest in which no category has id 0,
the move-submission path never issues a cycle-creating move: any
submittable candidate parent is neither the moving category itself nor one
of its descendants. -/
theorem moveSubmission_never_cycle
    (all : List Category) (rank : Int → Nat) (fuel : Nat) (sel : Category)
    (hnd : idsNodup all) (hres : parentsResolve all)
    (hr : ParentRanked all rank) (hz : noZeroId all)
    (hsel : sel ∈ all) (hfuel : ∀ c ∈ all, rank c.id < fuel)
    (candidate : Option Int)
    (hcand : canSubmitMove all fuel sel candidate) :
    candidate ≠ some sel.id ∧
      ∀ P ∈ all, candidate = some P.id → ¬ DescOf all sel.id P := by
  rcases hcand with h | h | ⟨kept, hkept, c, hck, hcid⟩
  · subst h
    exact ⟨by simp, fun P _ hP => by cases hP⟩
  · by_cases hf : jsFalsyNum sel.parentId = true
    · rw [h, jsOrNull, if_pos hf]
      exact ⟨by simp, fun P _ hP => by cases hP⟩
    · have hv : ∃ v, sel.parentId = some v := by
        cases hvv : sel.parentId with
        | none => exact absurd (by simp [jsFalsyNum, hvv]) hf
        | some v => exact ⟨v, rfl⟩
      obtain ⟨v, hv⟩ := hv
      rcases hres sel hsel with hn | ⟨q, hq, hqe⟩
      · rw [hn] at hv; cases hv
      have hcq : candidate = some q.id := by
        rw [h, jsOrNull, if_neg hf, hqe]
      constructor
      · rw [hcq]
        intro heq
        have hqs : q = sel := id_inj hnd hq hsel (Option.some.inj heq)
        have := hr sel hsel sel hsel (by rw [hqe, hqs])
        omega
      · intro P hP hPe hPdesc
        have hPq : P = q := by
          apply id_inj hnd hP hq
          rw [hcq] at hPe
          exact (Option.some.inj hPe).symm
        have h1 : rank sel.id < rank P.id :=
          DescOf_rank hr hPdesc hP sel hsel rfl
        have h2 := hr sel hsel q hq hqe
        rw [hPq] at h1
        omega
  · obtain ⟨kept2, hkept2, hiff⟩ :=
      availableParentFilter_spec all rank fuel sel.id hnd hres hr hz all
        (fun _ hc => hc) hfuel
    have hkk : kept = kept2 := by
      have : some kept = some kept2 := by rw [← hkept, ← hkept2]; rfl
      exact Option.some.inj this
    subst hkk
    obtain ⟨hcall, hcne, hcnd⟩ := (hiff c).mp hck
    constructor
    · rw [hcid]
      intro heq
      exact hcne (Option.some.inj heq)
    · intro P hP hPe hPdesc
      have hPc : P = c := by
        apply id_inj hnd hP hcall
        rw [hcid] at hPe
        exact (Option.some.inj hPe).symm
      exact hcnd (hPc ▸ hPdesc)

/-- Witness for the amended claim C8: on the three-category chain, moving
category 3 with submittable candidate parent 1. -/
theorem moveSubmission_never_cycle_witness :
    some (1 : Int) ≠ some (mkCat 3 (some 2)).id ∧
      ∀ P ∈ chainForest, some (1 : Int) = some P.id →
        ¬ DescOf chainForest (mkCat 3 (some 2)).id P :=
  moveSubmission_never_cycle chainForest chainRank 4 (mkCat 3 (some 2))
    (by decide) (by decide) (by decide) (by decide) (by decide) (by decide)
    (some 1)
    (Or.inr (Or.inr ⟨[mkCat 1 none, mkCat 2 (some 1)], by decide,
      mkCat 1 none, by decide, rfl⟩))

/-- CategoryTree node (`src/services/categoryService.ts`:
`CategoryTree extends Category` with `subCategories: CategoryTree[]`). -/
inductive CategoryTree where
  | node (info : Category) (subCategories : List CategoryTree)

/-- The plain Category record of a tree node. -/
def CategoryTree.info : CategoryTree → Category
  | .node i _ => i

/-- The stored child sequence of a tree node. -/
def CategoryTree.subCategories : CategoryTree → List CategoryTree
  | .node _ s => s

/-- Embedding of `flattenCategories` from
`src/app/products/[id]/edit/page.tsx` lines 52-62 (identically lines
645-655):

```
const flattenCategories = (cats) => {
    let result = [];
    cats.forEach((cat) => {
        result.push(cat);
        if (cat.subCategories && cat.subCategories.length > 0) {
            result = result.concat(flattenCategories(cat.subCategories));
        }
    });
    return result;
};
```

Each node is emitted (as its plain Category record), then its children are
flattened, then the remaining siblings. -/
def flattenCategories : List CategoryTree → List Category
  | [] => []
  | CategoryTree.node info sub :: rest =>
    info :: ((if sub.length > 0 then flattenCategories sub else []) ++
      flattenCategories rest)

/-- Modelled from the spec (for refinement comparison): "emit node, then
recurse into children in their stored order" — the canonical pre-order
depth-first traversal of a forest. -/
def preorderFlatten : List CategoryTree → List Category
  | [] => []
  | CategoryTree.node info sub :: rest =>
    info :: (preorderFlatten sub ++ preorderFlatten rest)

/-- Total number of nodes of a forest. -/
def countNodes : List CategoryTree → Nat
  | [] => 0
  | CategoryTree.node _ sub :: rest => 1 + countNodes sub + countNodes rest

lemma flatten_eq_pre (cats : List CategoryTree) :
    flattenCategories cats = preorderFlatten cats := by
  match cats with
  | [] => simp [flattenCategories, preorderFlatten]
  | CategoryTree.node info sub :: rest =>
    have h2 := flatten_eq_pre rest
    cases sub with
    | nil => simp [flattenCategories, preorderFlatten, h2]
    | cons s ss =>
      have h1 := flatten_eq_pre (s :: ss)
      simp [flattenCategories, preorderFlatten, h1, h2]

lemma pre_length (cats : List CategoryTree) :
    (preorderFlatten cats).length = countNodes cats := by
  match cats with
  | [] => simp [preorderFlatten, countNodes]
  | CategoryTree.node info sub :: rest =>
    have h1 := pre_length sub
    have h2 := pre_length rest
    simp [preorderFlatten, countNodes, h1, h2]
    omega

/-- Claim C4: `flattenCategories` is the pure pre-order depth-first
traversal: it equals the canonical "emit node, then children in stored
order" traversal, its output length is the total node count of the forest
(so every node is emitted exactly once), and it unfolds head-first — each
node appears before all of its descendants and before later siblings. -/
theorem flattenCategories_preorder :
    (∀ cats, flattenCategories cats = preorderFlatten cats) ∧
    (∀ cats, (flattenCategories cats).length = countNodes cats) ∧
    (∀ info sub rest,
      flattenCategories (CategoryTree.node info sub :: rest) =
        info :: (flattenCategories sub ++ flattenCategories rest)) := by
  refine ⟨flatten_eq_pre, ?_, ?_⟩
  · intro cats
    rw [flatten_eq_pre]
    exact pre_length cats
  · intro info sub rest
    rw [flatten_eq_pre, flatten_eq_pre sub, flatten_eq_pre rest]
    simp [preorderFlatten]

/-- ProductImage record (`src/services/productImageService.ts`). -/
structure ProductImage where
  id : Int
  productId : Int
  imageUrl : String
  altText : Option String
  order : Int
  deriving Repr, DecidableEq

/-- The payload of `productImageService.reorderImages(productId,
imageOrders)`: a PATCH to `/product-images/product/(productId)/reorder`
carrying a mapping from image id to new order value; the mapping is kept
as an association list in insertion order. -/
structure ReorderCall where
  productId : Int
  imageOrders : List (Int × Int)
  deriving Repr, DecidableEq

/-- Embedding of `handleDrop` from `src/app/products/[id]/edit/page.tsx`
lines 1049-1071:

```
if (!draggedImageId || draggedImageId === targetImageId || !productId) return;
const draggedImage = currentImages.find((img) => img.id === draggedImageId);
const targetImage = currentImages.find((img) => img.id === targetImageId);
if (!draggedImage || !targetImage) return;
const imageOrders = { [draggedImageId]: targetImage.order,
                      [targetImageId]: draggedImage.order };
reorderImagesMutation.mutate({ productId, imageOrders });
```

`none` means the handler returns without issuing any network call. -/
def handleDrop (draggedImageId : Option Int) (targetImageId : Int)
    (images : List ProductImage) (productId : Option Int) :
    Option ReorderCall :=
  if jsFalsyNum draggedImageId || draggedImageId == some targetImageId ||
      jsFalsyNum productId then none
  else
    match draggedImageId, productId with
    | some dId, some pid =>
      match images.find? (fun img => img.id == dId),
          images.find? (fun img => img.id == targetImageId) with
      | some dragged, some target =>
        some { productId := pid,
               imageOrders := [(dId, target.order),
                               (targetImageId, dragged.order)] }
      | _, _ => none
    | _, _ => none

/-- Image ids of the list are pairwise distinct. -/
def imgIdsNodup (images : List ProductImage) : Prop :=
  (images.map (fun i => i.id)).Nodup

instance (images : List ProductImage) : Decidable (imgIdsNodup images) := by
  unfold imgIdsNodup; infer_instance

lemma find_img_self {images : List ProductImage}
    (hnd : imgIdsNodup images) {A : ProductImage} (hA : A ∈ images) :
    images.find? (fun i => i.id == A.id) = some A := by
  induction images with
  | nil => cases hA
  | cons x rest ih =>
    have hnd2 : imgIdsNodup rest := (List.nodup_cons.mp hnd).2
    by_cases hx : x.id = A.id
    · have hxA : x = A := by
        rcases List.mem_cons.mp hA with h | h
        · exact h.symm
        · exfalso
          have hmem : x.id ∈ rest.map (fun i => i.id) :=
            hx ▸ List.mem_map_of_mem (fun i => i.id) h
          exact (List.nodup_cons.mp hnd).1 hmem
      rw [List.find?_cons_of_pos _ (by simp [hx]), hxA]
    · have hA2 : A ∈ rest := by
        rcases List.mem_cons.mp hA with h | h
        · exact absurd (congrArg ProductImage.id h).symm hx
        · exact h
      rw [List.find?_cons_of_neg _ (by simp [hx])]
      exact ih hnd2 hA2

/-- First concrete image pair: ids 1 and 2, orders 3 and 7, product 9. -/
def imgA : ProductImage :=
  { id := 1, productId := 9, imageUrl := "", altText := none, order := 3 }

/-- Second concrete image. -/
def imgB : ProductImage :=
  { id := 2, productId := 9, imageUrl := "", altText := none, order := 7 }

/-- Concrete image with id 0 (order 3, product 9). -/
def imgZero : ProductImage :=
  { id := 0, productId := 9, imageUrl := "", altText := none, order := 3 }

/-- Claim C6, counterexample: the two images with ids 0 and 2 are distinct
images of product 9, yet dropping the id-0 image onto the other issues no
call at all — `!draggedImageId` treats the dragged id 0 as "no drag in
progress" — where the claim requires a two-entry swap submission. -/
theorem handleDrop_id_zero_counterexample :
    imgZero ∈ [imgZero, imgB] ∧ imgB ∈ [imgZero, imgB] ∧
    imgZero.id ≠ imgB.id ∧
    handleDrop (some imgZero.id) imgB.id [imgZero, imgB] (some 9) = none :=
  ⟨by decide, by decide, by decide, by decide⟩

/-- Claim C6 (amended): for two distinct-id images A and B of a product
with nonzero id, where image ids are pairwise distinct and A's id is
nonzero, dropping A on B submits exactly the two-entry mapping swapping
the two order values (so no other image's order is touched); and dropping
any image onto itself issues zero network calls. -/
theorem handleDrop_swaps_exactly
    (images : List ProductImage) (A B : ProductImage) (pid : Int)
    (hnd : imgIdsNodup images) (hA : A ∈ images) (hB : B ∈ images)
    (hAB : A.id ≠ B.id) (hA0 : A.id ≠ 0) (hpid : pid ≠ 0) :
    handleDrop (some A.id) B.id images (some pid) =
      some { productId := pid,
             imageOrders := [(A.id, B.order), (B.id, A.order)] } ∧
    ∀ (d : Int) (imgs2 : List ProductImage) (p2 : Option Int),
      handleDrop (some d) d imgs2 p2 = none := by
  constructor
  · have h1 : images.find? (fun img => img.id == A.id) = some A :=
      find_img_self hnd hA
    have h2 : images.find? (fun img => img.id == B.id) = some B :=
      find_img_self hnd hB
    have ha : jsFalsyNum (some A.id) = false := by simp [jsFalsyNum, hA0]
    have hp : jsFalsyNum (some pid) = false := by simp [jsFalsyNum, hpid]
    simp [handleDrop, ha, hp, hAB, h1, h2]
  · intro d imgs2 p2
    simp [handleDrop]

/-- Witness for the amended claim C6: dropping image 1 (order 3) on image
2 (order 7) in product 9 submits exactly the swap mapping. -/
theorem handleDrop_swaps_exactly_witness :
    handleDrop (some imgA.id) imgB.id [imgA, imgB] (some 9) =
      some { productId := 9,
             imageOrders := [(imgA.id, imgB.order), (imgB.id, imgA.order)] } ∧
    ∀ (d : Int) (imgs2 : List ProductImage) (p2 : Option Int),
      handleDrop (some d) d imgs2 p2 = none :=
  handleDrop_swaps_exactly [imgA, imgB] imgA imgB 9
    (by decide) (by decide) (by decide) (by decide) (by decide) (by decide)

/-- Embedding of the order computation in `handleAddImage`
(`src/app/products/[id]/edit/page.tsx` lines 993-1010):

```
const maxOrder = currentImages.length > 0
    ? Math.max(...currentImages.map((img) => img.order))
    : 0;
addImageMutation.mutate({ ..., order: maxOrder + 1 });
```

`Math.max` over the non-empty spread is the fold of the binary maximum. -/
def handleAddImageOrder (images : List ProductImage) : Int :=
  (if images.length > 0 then
    match images.map (fun i => i.order) with
    | [] => 0
    | o :: os => os.foldl max o
  else 0) + 1

lemma le_foldl_max (l : List Int) :
    ∀ a : Int, a ≤ l.foldl max a ∧ ∀ x ∈ l, x ≤ l.foldl max a := by
  induction l with
  | nil => intro a; exact ⟨le_refl a, by simp⟩
  | cons y t ih =>
    intro a
    have h := ih (max a y)
    constructor
    · exact le_trans (le_max_left a y) h.1
    · intro x hx
      rcases List.mem_cons.mp hx with h1 | h1
      · rw [h1]; exact le_trans (le_max_right a y) h.1
      · exact h.2 x h1

lemma order_lt_handleAddImageOrder (images : List ProductImage) :
    ∀ i ∈ images, i.order < handleAddImageOrder images := by
  cases images with
  | nil => intro i hi; cases hi
  | cons j t =>
    intro i hi
    have hM := le_foldl_max (t.map (fun x => x.order)) j.order
    have hred : handleAddImageOrder (j :: t) =
        (t.map (fun x => x.order)).foldl max j.order + 1 := by
      simp [handleAddImageOrder]
    rw [hred]
    rcases List.mem_cons.mp hi with h1 | h1
    · subst h1; omega
    · have := hM.2 i.order (List.mem_map_of_mem (fun x => x.order) h1)
      omega

lemma mem_of_getLast_eq {α : Type} {l : List α} {y : α}
    (h : l.getLast? = some y) : y ∈ l := by
  have hx : y ∈ l.getLast? := Option.mem_def.mpr h
  obtain ⟨hne, heq⟩ := List.mem_getLast?_eq_getLast hx
  rw [heq]
  exact List.getLast_mem hne

lemma pairwise_rel_getLast {α : Type} {r : α → α → Prop} :
    ∀ (l : List α), l.Pairwise r → ∀ x ∈ l, ∀ y, l.getLast? = some y →
      x = y ∨ r x y := by
  intro l
  induction l with
  | nil => intro _ x hx; cases hx
  | cons a t ih =>
    intro hp x hx y hy
    cases t with
    | nil =>
      have hxa : x = a := by simpa using hx
      have hya : y = a := by simpa using hy.symm
      left; rw [hxa, hya]
    | cons b t2 =>
      have hlast : (b :: t2).getLast? = some y := by
        rwa [List.getLast?_cons_cons] at hy
      rcases List.mem_cons.mp hx with h1 | h1
      · subst h1
        right
        have hy_mem : y ∈ b :: t2 := mem_of_getLast_eq hlast
        exact (List.pairwise_cons.mp hp).1 y hy_mem
      · exact ih (List.pairwise_cons.mp hp).2 x h1 y hlast

/-- Claim C10: a newly added image gets order `max existing + 1` (so `1`
on a product with no images), every existing image's order is strictly
below it, and therefore in any list that arranges the images plus the new
one in ascending `order` (the display sort
`[...images].sort((a, b) => a.order - b.order)` of line 1380), the new
image is the last element. -/
theorem handleAddImage_order_is_last :
    handleAddImageOrder [] = 1 ∧
    (∀ images, ∀ i ∈ images, i.order < handleAddImageOrder images) ∧
    (∀ (images : List ProductImage) (newImg : ProductImage)
        (s : List ProductImage),
      newImg.order = handleAddImageOrder images →
      s.Perm (images ++ [newImg]) →
      s.Pairwise (fun a b => a.order ≤ b.order) →
      s.getLast? = some newImg) := by
  refine ⟨rfl, order_lt_handleAddImageOrder, ?_⟩
  intro images newImg s hord hperm hsorted
  have hmem : newImg ∈ s := hperm.mem_iff.mpr (by simp)
  have hne : s ≠ [] := by
    intro h
    rw [h] at hmem
    cases hmem
  obtain ⟨y, hy⟩ : ∃ y, s.getLast? = some y := by
    cases hs : s.getLast? with
    | none => exact absurd (List.getLast?_eq_none_iff.mp hs) hne
    | some y => exact ⟨y, rfl⟩
  have hy_mem : y ∈ s := mem_of_getLast_eq hy
  have hy_src : y ∈ images ++ [newImg] := hperm.mem_iff.mp hy_mem
  rcases pairwise_rel_getLast s hsorted newImg hmem y hy with h | h
  · rw [hy, h]
  · rcases List.mem_append.mp hy_src with h1 | h1
    · have hlt : y.order < newImg.order :=
        hord ▸ order_lt_handleAddImageOrder images y h1
      omega
    · have : y = newImg := by simpa using h1
      rw [hy, this]

/-- Image with the order value a fresh add to `[imgA]` receives. -/
def imgNew : ProductImage :=
  { id := 3, productId := 9, imageUrl := "", altText := none, order := 4 }

/-- Witness for claim C10: adding to a one-image product gives order 4,
and the ascending arrangement puts the new image last. -/
theorem handleAddImage_order_is_last_witness :
    ([imgA, imgNew] : List ProductImage).getLast? = some imgNew ∧
    imgA.order < handleAddImageOrder [imgA] :=
  ⟨handleAddImage_order_is_last.2.2 [imgA] imgNew [imgA, imgNew] (by decide)
      (List.Perm.refl _) (by decide),
    handleAddImage_order_is_last.2.1 [imgA] imgA (by decide)⟩

/-- The backend's actual paginated envelope
(`src/services/categoryService.ts` lines 59-65, identically
`src/services/brandService.ts`): `{data, total, page, size, totalPages}`. -/
structure BackendPageResponse (α : Type) where
  data : List α
  total : Int
  page : Int
  size : Int
  totalPages : Int

/-- The canonical page envelope used by all consumers
(`PageResponse` of the `types/api` module):
`{content, totalElements, totalPages, size, number, first, last, empty}`. -/
structure PageResponse (α : Type) where
  content : List α
  totalElements : Int
  totalPages : Int
  size : Int
  number : Int
  first : Bool
  last : Bool
  empty : Bool

/-- Embedding of the transform in `CategoryService.getAll`
(`src/services/categoryService.ts` lines 90-99):

```
return {
    content: response.data,
    totalElements: response.total,
    totalPages: response.totalPages,
    size: response.size,
    number: response.page,
    first: response.page === 0,
    last: response.page >= response.totalPages - 1,
    empty: response.data.length === 0,
};
``` -/
def categoryGetAllTransform {α : Type} (r : BackendPageResponse α) :
    PageResponse α :=
  { content := r.data
    totalElements := r.total
    totalPages := r.totalPages
    size := r.size
    number := r.page
    first := decide (r.page = 0)
    last := decide (r.page ≥ r.totalPages - 1)
    empty := decide (r.data.length = 0) }

/-- Embedding of the (textually identical) transform in
`CategoryService.search` (`src/services/categoryService.ts` lines
193-202). -/
def categorySearchTransform {α : Type} (r : BackendPageResponse α) :
    PageResponse α :=
  { content := r.data
    totalElements := r.total
    totalPages := r.totalPages
    size := r.size
    number := r.page
    first := decide (r.page = 0)
    last := decide (r.page ≥ r.totalPages - 1)
    empty := decide (r.data.length = 0) }

/-- The second observed backend envelope shape
`{content, totalElements, totalPages, size, number}` (spec section 4.3). -/
structure SpringPageEnvelope (α : Type) where
  content : List α
  totalElements : Int
  totalPages : Int
  size : Int
  number : Int

/-- Modelled from the spec: the adapter completing the second observed
envelope shape to the canonical one by deriving the three flags from the
underlying data ("the cache/adapter layer must normalize both into one
canonical shape ... before storage"). The `types/api` module that defines
the canonical envelope, and the boundary adapter for responses already in
that shape, are not under `src/`; only their consumers are. -/
def normalizeSpringEnvelope {α : Type} (r : SpringPageEnvelope α) :
    PageResponse α :=
  { content := r.content
    totalElements := r.totalElements
    totalPages := r.totalPages
    size := r.size
    number := r.number
    first := decide (r.number = 0)
    last := decide (r.number ≥ r.totalPages - 1)
    empty := decide (r.content.length = 0) }

/-- The two envelope shapes carry the same underlying data. -/
def equivUnderlying {α : Type} (b : BackendPageResponse α)
    (p : SpringPageEnvelope α) : Prop :=
  b.data = p.content ∧ b.total = p.totalElements ∧
    b.totalPages = p.totalPages ∧ b.size = p.size ∧ b.page = p.number

/-- Claim C5: the two normalization sites produce the same canonical
envelope; the derived flags are computed correctly (first iff page index
0, last iff page index at least totalPages - 1, empty iff no items); and
equivalent underlying data from either observed envelope shape yields
identical canonical output. -/
theorem pageNormalization_canonical (α : Type) :
    (∀ r : BackendPageResponse α,
      categoryGetAllTransform r = categorySearchTransform r) ∧
    (∀ r : BackendPageResponse α,
      ((categoryGetAllTransform r).first = true ↔ r.page = 0) ∧
      ((categoryGetAllTransform r).last = true ↔
        r.page ≥ r.totalPages - 1) ∧
      ((categoryGetAllTransform r).empty = true ↔ r.data = [])) ∧
    (∀ (b : BackendPageResponse α) (p : SpringPageEnvelope α),
      equivUnderlying b p →
        categoryGetAllTransform b = normalizeSpringEnvelope p) := by
  refine ⟨fun r => rfl, fun r => ?_, ?_⟩
  · refine ⟨by simp [categoryGetAllTransform], ?_, ?_⟩
    · simp [categoryGetAllTransform]
    · simp [categoryGetAllTransform, List.length_eq_zero]
  · rintro b p ⟨h1, h2, h3, h4, h5⟩
    simp [categoryGetAllTransform, normalizeSpringEnvelope,
      h1, h2, h3, h4, h5]

/-- Concrete backend envelope: one item, page 0 of 1. -/
def backendPage0 : BackendPageResponse Int :=
  { data := [10], total := 1, page := 0, size := 20, totalPages := 1 }

/-- The same underlying data in the second envelope shape. -/
def springPage0 : SpringPageEnvelope Int :=
  { content := [10], totalElements := 1, totalPages := 1, size := 20,
    number := 0 }

/-- Witness for claim C5: the concrete envelopes above normalize to the
same canonical output. -/
theorem pageNormalization_canonical_witness :
    categoryGetAllTransform backendPage0 = normalizeSpringEnvelope springPage0 :=
  (pageNormalization_canonical Int).2.2 backendPage0 springPage0
    ⟨rfl, rfl, rfl, rfl, rfl⟩

/-- One list-query cache entry for a fixed key (spec section 3): the
last-fetched page (abstracted to an `Int` payload), a freshness flag, an
in-flight marker, and the callers awaiting the pending fetch. -/
structure CacheEntry where
  data : Option Int
  stale : Bool
  inflight : Bool
  waiters : List Nat
  deriving Repr, DecidableEq

/-- State of the cache for one key plus observation counters: how many
network fetches were started and which caller received which value. -/
structure CacheState where
  entry : CacheEntry
  fetchCount : Nat
  delivered : List (Nat × Int)
  deriving Repr, DecidableEq

/-- Commands against one cache key: a read by a caller, an invalidation of
the key's resource family, and the completion of the pending fetch. -/
inductive CacheCmd where
  | get (caller : Nat)
  | invalidate
  | resolve (value : Int)
  deriving Repr, DecidableEq

/-- Modelled from the spec: the list-query cache used by the pages through
`useQuery`/`invalidateQueries` — the cache layer itself (the react-query
client) is not under `src/`, only its callers are. Spec sections 4.3 and
5: a `get` while a fetch is in flight awaits the same pending fetch
(issuing no duplicate); a `get` on a fresh cached entry is served from the
cache; any other `get` starts exactly one network fetch; `invalidate`
marks the entry stale so the next `get` fetches; a resolving fetch is
delivered to every waiting caller. -/
def cacheStep (s : CacheState) : CacheCmd → CacheState
  | CacheCmd.get caller =>
    if s.entry.inflight then
      { s with entry := { s.entry with waiters := s.entry.waiters ++ [caller] } }
    else
      match s.entry.data, s.entry.stale with
      | some v, false => { s with delivered := s.delivered ++ [(caller, v)] }
      | _, _ =>
        { entry := { data := s.entry.data, stale := s.entry.stale,
                     inflight := true, waiters := [caller] },
          fetchCount := s.fetchCount + 1,
          delivered := s.delivered }
  | CacheCmd.invalidate =>
    { s with entry := { s.entry with stale := true } }
  | CacheCmd.resolve v =>
    if s.entry.inflight then
      { entry := { data := some v, stale := false, inflight := false,
                   waiters := [] },
        fetchCount := s.fetchCount,
        delivered := s.delivered ++ s.entry.waiters.map (fun c => (c, v)) }
    else s

/-- The cache state reached from the empty initial state by a command
sequence. -/
def cacheRun (cmds : List CacheCmd) : CacheState :=
  cmds.foldl cacheStep
    { entry := { data := none, stale := false, inflight := false,
                 waiters := [] },
      fetchCount := 0, delivered := [] }

/-- Claim C9: two reads of the same key issued before the first resolves
trigger exactly one network fetch, and both callers receive the value of
that single fetch; in general a `get` while a fetch is in flight never
starts another fetch. -/
theorem cache_single_inflight_fetch :
    (∀ (c1 c2 : Nat) (v : Int),
      (cacheRun [CacheCmd.get c1, CacheCmd.get c2, CacheCmd.resolve v]).fetchCount = 1 ∧
      (cacheRun [CacheCmd.get c1, CacheCmd.get c2, CacheCmd.resolve v]).delivered =
        [(c1, v), (c2, v)]) ∧
    (∀ (s : CacheState) (c : Nat), s.entry.inflight = true →
      (cacheStep s (CacheCmd.get c)).fetchCount = s.fetchCount) := by
  constructor
  · exact fun c1 c2 v => ⟨rfl, rfl⟩
  · intro s c h
    simp [cacheStep, h]

/-- Witness for claim C9: after one pending `get`, a second `get` does not
start a new fetch. -/
theorem cache_single_inflight_fetch_witness :
    (cacheStep (cacheRun [CacheCmd.get 0]) (CacheCmd.get 1)).fetchCount =
      (cacheRun [CacheCmd.get 0]).fetchCount :=
  cache_single_inflight_fetch.2 (cacheRun [CacheCmd.get 0]) 1 rfl

/-- Abstract events of the success path of a UI mutation handler. -/
inductive UiEvent where
  | request (endpoint : String)
  | invalidate (family : String)
  | refetch (family : String)
  | closeModal
  deriving Repr, DecidableEq

/-- Success path of `createMutation` (`src/unnamed/part_000` lines
147-156): the network request, then `onSuccess` runs
`queryClient.invalidateQueries(... categories ...)` and only then
`closeModal()`. -/
def createMutationTrace : List UiEvent :=
  [UiEvent.request "POST /categories",
   UiEvent.invalidate "categories", UiEvent.closeModal]

/-- Success path of `updateMutation` (`src/unnamed/part_000` lines
158-168). -/
def updateMutationTrace : List UiEvent :=
  [UiEvent.request "PUT /categories/id",
   UiEvent.invalidate "categories", UiEvent.closeModal]

/-- Success path of `deleteMutation` (`src/unnamed/part_000` lines
170-179). -/
def deleteMutationTrace : List UiEvent :=
  [UiEvent.request "DELETE /categories/id",
   UiEvent.invalidate "categories", UiEvent.closeModal]

/-- Success path of `moveMutation` (`src/unnamed/part_000` lines
181-191). -/
def moveMutationTrace : List UiEvent :=
  [UiEvent.request "PATCH /categories/id/move",
   UiEvent.invalidate "categories", UiEvent.closeModal]

/-- Success path of `handleMove` in the non-react-query variant
(`src/app/categories/page.tsx` lines 252-272): `await
categoryService.move(...)`, then `await loadCategories()` (a fresh
refetch of the category queries), then `closeModal()`. -/
def handleMoveTrace : List UiEvent :=
  [UiEvent.request "PATCH /categories/id/move",
   UiEvent.refetch "categories", UiEvent.closeModal]

/-- All category-mutation success traces of the two page variants. -/
def categoryMutationTraces : List (List UiEvent) :=
  [createMutationTrace, updateMutationTrace, deleteMutationTrace,
   moveMutationTrace, handleMoveTrace]

/-- The trace refreshes the family's cached lists (invalidate or refetch)
strictly before signaling completion to the caller (`closeModal`). -/
def invalidatesBefore (family : String) (t : List UiEvent) : Bool :=
  match t.findIdx? (fun e => e == UiEvent.invalidate family ||
      e == UiEvent.refetch family),
    t.findIdx? (fun e => e == UiEvent.closeModal) with
  | some i, some j => decide (i < j)
  | _, _ => false

/-- Claim C7: every successful category mutation (create, update, delete,
move in the react-query variant, and the move handler of the other
variant) invalidates or refetches the family's cached list queries before
signaling completion; and on the cache, a read after an invalidation is
served by a fresh fetch rather than the pre-mutation entry. -/
theorem mutations_invalidate_before_complete :
    (∀ t ∈ categoryMutationTraces,
      invalidatesBefore "categories" t = true) ∧
    (∀ (s : CacheState) (c : Nat), s.entry.inflight = false →
      (cacheStep (cacheStep s CacheCmd.invalidate)
        (CacheCmd.get c)).fetchCount = s.fetchCount + 1) := by
  constructor
  · decide
  · intro s c h
    cases hd : s.entry.data with
    | none => simp [cacheStep, h, hd]
    | some v => simp [cacheStep, h, hd]

/-- Witness for claim C7: the create-mutation trace invalidates before
completing, and a concrete idle cache state refetches after invalidation. -/
theorem mutations_invalidate_before_complete_witness :
    invalidatesBefore "categories" createMutationTrace = true ∧
    (cacheStep (cacheStep (cacheRun []) CacheCmd.invalidate)
      (CacheCmd.get 7)).fetchCount = (cacheRun []).fetchCount + 1 :=
  ⟨mutations_invalidate_before_complete.1 createMutationTrace (by decide),
    mutations_invalidate_before_complete.2 (cacheRun []) 7 rfl⟩
